import Mathlib

/-!
# Verification of the Search-Engine-Project core

Shallow embedding of the repository's core components:

* `TextProcessor` (text_processor.h): Porter-style stemmer, stopword filter,
  `processWord`.
* `AVLTree` (avl_tree.h, embedded in searchEngine.cpp): self-balancing
  string-keyed map with root-only binary persistence.
* `SearchEngine::WordMap` (searchEngine.cpp): the three-index manager.
* `SearchEngine::parse` (searchEngine.cpp): query tokenization.

C++ `std::string` values are modelled as Lean `String` / `List Char`
(the corpus and queries are byte strings; all constants involved are ASCII).
`size_t` is 8 bytes and `int` 4 bytes, little-endian, as on the x86-64
target the project's CMake build assumes.
-/

namespace SearchEngineProof

/-- Models `::tolower` (C locale) applied byte-wise: ASCII `A`-`Z` map to
`a`-`z`, every other character is unchanged. -/
def lowerChar (c : Char) : Char :=
  if 'A' ≤ c ∧ c ≤ 'Z' then Char.ofNat (c.toNat + 32) else c

/-- `std::transform(s.begin(), s.end(), s.begin(), ::tolower)` on a whole string. -/
def lowerString (s : String) : String :=
  String.mk (s.toList.map lowerChar)

/-- `TextProcessor::isConsonant(str, i)`: vowels are not consonants, `y` is a
consonant at position 0 and otherwise a consonant exactly when the previous
character is not one; everything else is a consonant.  The C++ accesses
`str[i]` with `i` in bounds; out-of-range positions (never reached by the
callers below) default to `' '`. -/
def isConsonant (s : List Char) : Nat → Bool
  | 0 =>
    let c := s.getD 0 ' '
    if c = 'a' ∨ c = 'e' ∨ c = 'i' ∨ c = 'o' ∨ c = 'u' then false
    else true
  | i + 1 =>
    let c := s.getD (i + 1) ' '
    if c = 'a' ∨ c = 'e' ∨ c = 'i' ∨ c = 'o' ∨ c = 'u' then false
    else if c = 'y' then ! isConsonant s i
    else true

/-- `TextProcessor::measureConsecutiveVC`: counts consonant-to-vowel
transitions, starting with `prevC = true`. -/
def measureConsecutiveVC (s : List Char) : Nat :=
  ((List.range s.length).foldl
    (fun (acc : Nat × Bool) i =>
      let isC := isConsonant s i
      (if acc.2 ∧ ! isC then acc.1 + 1 else acc.1, isC))
    (0, true)).1

/-- `TextProcessor::hasVowel`. -/
def hasVowel (s : List Char) : Bool :=
  (List.range s.length).any (fun i => ! isConsonant s i)

/-- `TextProcessor::endsWith`. -/
def endsWith (s suffix : List Char) : Bool :=
  suffix.length ≤ s.length && s.drop (s.length - suffix.length) == suffix

/-- `TextProcessor::endsWithDoubleConsonant`. -/
def endsWithDoubleConsonant (s : List Char) : Bool :=
  if s.length < 2 then false
  else
    (s.getD (s.length - 1) ' ' == s.getD (s.length - 2) ' ') &&
      isConsonant s (s.length - 1)

/-- `TextProcessor::endsWithCVC`. -/
def endsWithCVC (s : List Char) : Bool :=
  if s.length < 3 then false
  else
    let j := s.length - 1
    isConsonant s j && ! isConsonant s (j - 1) && isConsonant s (j - 2) &&
      !(s.getD j ' ' == 'w') && !(s.getD j ' ' == 'x') && !(s.getD j ' ' == 'y')

/-- `TextProcessor::replaceSuffix`. -/
def replaceSuffix (s suffix repl : List Char) : List Char :=
  if suffix.length ≤ s.length ∧ s.drop (s.length - suffix.length) = suffix
  then s.take (s.length - suffix.length) ++ repl
  else s

/-- `TextProcessor::step1a`: plural reduction. -/
def step1a (s : List Char) : List Char :=
  if endsWith s "sses".toList then replaceSuffix s "sses".toList "ss".toList
  else if endsWith s "ies".toList then replaceSuffix s "ies".toList "i".toList
  else if endsWith s "ss".toList then s
  else if endsWith s "s".toList then s.dropLast
  else s

/-- `TextProcessor::step1b`: past-tense / gerund reduction. -/
def step1b (s : List Char) : List Char :=
  if endsWith s "eed".toList then
    if measureConsecutiveVC (s.take (s.length - 3)) > 0 then
      replaceSuffix s "eed".toList "ee".toList
    else s
  else if (endsWith s "ed".toList && hasVowel (s.take (s.length - 2))) ||
          (endsWith s "ing".toList && hasVowel (s.take (s.length - 3))) then
    let s1 :=
      if endsWith s "ed".toList then replaceSuffix s "ed".toList []
      else replaceSuffix s "ing".toList []
    if endsWith s1 "at".toList || endsWith s1 "bl".toList || endsWith s1 "iz".toList then
      s1 ++ ['e']
    else if endsWithDoubleConsonant s1 && ! endsWith s1 "l".toList &&
            ! endsWith s1 "s".toList && ! endsWith s1 "z".toList then
      s1.dropLast
    else if measureConsecutiveVC s1 == 1 && endsWithCVC s1 then
      s1 ++ ['e']
    else s1
  else s

/-- `TextProcessor::step1c`: final `y` to `i` when a vowel precedes. -/
def step1c (s : List Char) : List Char :=
  if endsWith s "y".toList && hasVowel (s.take (s.length - 1)) then
    s.dropLast ++ ['i']
  else s

/-- `TextProcessor::stem`: words of length at most 2 are returned unchanged
(without lowercasing); longer words are lowercased and passed through the
three step functions in order. -/
def stem (word : String) : String :=
  if word.length ≤ 2 then word
  else String.mk (step1c (step1b (step1a (word.toList.map lowerChar))))

/-- Modelled from the spec: the source file elides the stopword list after its
first ten entries (`// ... (continued for brevity)` in `TextProcessor`'s
constructor).  The ten visible entries are kept verbatim; `"the"` is added
because the spec attests `processWord("the") == ""` and describes the set as
"a fixed, lowercase stopword set". -/
def stopwords : List String :=
  ["a", "about", "above", "after", "again", "against", "all", "am", "an", "and",
   "the"]

/-- `TextProcessor::isStopword`: membership in the stopword set.  The raw
(not case-folded) word is tested, exactly as in the source. -/
def isStopword (word : String) : Bool :=
  decide (word ∈ stopwords)

/-- `TextProcessor::processWord`: empty output for stopwords, else the stem. -/
def processWord (word : String) : String :=
  if isStopword word then "" else stem word

/-! ## Query parsing (`SearchEngine::parse`) -/

/-- The C-locale whitespace characters skipped by `operator>>` on an
`istringstream`. -/
def isSpaceChar (c : Char) : Bool :=
  c == ' ' || c == '\t' || c == '\n' || c == '\x0b' || c == '\x0c' || c == '\r'

/-- Worker for `tokenize`: accumulates the current (reversed) token. -/
def tokensAux : List Char → List Char → List String
  | [], [] => []
  | [], cur => [String.mk cur.reverse]
  | c :: rest, cur =>
    if isSpaceChar c then
      if cur = [] then tokensAux rest []
      else String.mk cur.reverse :: tokensAux rest []
    else tokensAux rest (c :: cur)

/-- Models `while (iss >> term)`: the maximal runs of non-whitespace
characters, in order.  Every token produced is non-empty. -/
def tokenize (q : String) : List String :=
  tokensAux q.toList []

/-- `term.rfind(p, 0) == 0`: does the token start with the given characters? -/
def startsWithChars : List Char → List Char → Bool
  | _, [] => true
  | [], _ :: _ => false
  | c :: s, d :: p => c == d && startsWithChars s p

/-- The per-token body of `SearchEngine::parse`: lowercase, then classify as
entity filter (kept verbatim), negated word (kept only if the normalized
remainder is non-empty), or positive word (kept only if non-empty).
`none` means the token is dropped. -/
def classify (term : String) : Option String :=
  let t := lowerString term
  if startsWithChars t.toList "org:".toList ||
      startsWithChars t.toList "person:".toList then some t
  else if t.toList.getD 0 ' ' = '-' then
    let processedTerm := "-" ++ processWord (String.mk (t.toList.drop 1))
    if processedTerm.length > 1 then some processedTerm else none
  else
    let processedTerm := processWord t
    if processedTerm ≠ "" then some processedTerm else none

/-- One `terms.insert(...)` step of `SearchEngine::parse` on the modelled
set: insert the classified token unless it is already present (or dropped). -/
def parseStep (acc : List String) (tok : String) : List String :=
  match classify tok with
  | some x => if x ∈ acc then acc else acc ++ [x]
  | none => acc

/-- `SearchEngine::parse`: each whitespace token is classified and inserted
into an `unordered_set`.  The set is modelled as a duplicate-free list in
first-insertion order (the C++ set's iteration order is unspecified; every
claim below is about membership and duplicate-freedom only). -/
def parse (q : String) : List String :=
  (tokenize q).foldl parseStep []

/-- Does the string contain an ASCII uppercase letter?  (Used to phrase the
claims about stopword casing.) -/
def containsUpper (s : String) : Bool :=
  s.toList.any (fun c => 'A' ≤ c ∧ c ≤ 'Z')

/-! ## The Balanced Index (`AVLTree<T>` from avl_tree.h) -/

/-- A tree of `AVLNode<T>`s; `nil` is the null `shared_ptr`.  Constructor
fields follow the C++ members: key, value, stored height, left, right. -/
inductive AVLTree (T : Type) where
  | nil : AVLTree T
  | node (key : String) (value : T) (ht : Nat) (left right : AVLTree T) : AVLTree T
deriving Repr, DecidableEq

namespace AVLTree

variable {T : Type}

/-- `AVLTree::height`: 0 for null, otherwise the stored height field. -/
def height : AVLTree T → Nat
  | nil => 0
  | node _ _ h _ _ => h

/-- `AVLTree::getBalance`: stored left height minus stored right height. -/
def getBalance : AVLTree T → Int
  | nil => 0
  | node _ _ _ l r => (height l : Int) - (height r : Int)

/-- `AVLTree::rightRotate`.  The C++ only calls this with a non-null left
child; any other shape is returned unchanged (that branch is unreachable in
the code paths modelled here). -/
def rightRotate : AVLTree T → AVLTree T
  | node yk yv _ (node xk xv _ t1 t2) t3 =>
    node xk xv (max (height t1) (max (height t2) (height t3) + 1) + 1) t1
      (node yk yv (max (height t2) (height t3) + 1) t2 t3)
  | t => t

/-- `AVLTree::leftRotate`, mirror image of `rightRotate`. -/
def leftRotate : AVLTree T → AVLTree T
  | node xk xv _ t1 (node yk yv _ t2 t3) =>
    node yk yv (max (max (height t1) (height t2) + 1) (height t3) + 1)
      (node xk xv (max (height t1) (height t2) + 1) t1 t2) t3
  | t => t

/-- The key of the root node.  The C++ dereferences `node->left->key` /
`node->right->key` only under a balance-factor guard that (with correct
heights) guarantees the child is non-null; the `nil` case is junk for the
same unreachable situation. -/
def rootKey : AVLTree T → String
  | nil => ""
  | node k _ _ _ _ => k

/-- The four-case rebalancing block at the end of `AVLTree::insert`, applied
to the node whose height was just recomputed. -/
def rebalance (t : AVLTree T) (key : String) : AVLTree T :=
  match t with
  | nil => nil
  | node k v h l r =>
    if 1 < (height l : Int) - (height r : Int) ∧ key < rootKey l then
      rightRotate (node k v h l r)
    else if (height l : Int) - (height r : Int) < -1 ∧ rootKey r < key then
      leftRotate (node k v h l r)
    else if 1 < (height l : Int) - (height r : Int) ∧ rootKey l < key then
      rightRotate (node k v h (leftRotate l) r)
    else if (height l : Int) - (height r : Int) < -1 ∧ key < rootKey r then
      leftRotate (node k v h l (rightRotate r))
    else node k v h l r

/-- `AVLTree::insert` (the private recursive helper; the public method just
applies it to the root).  New nodes get height 1; an equal key overwrites the
value in place; otherwise the node's height is recomputed from the stored
child heights and the rebalancing block runs. -/
def insert (t : AVLTree T) (key : String) (value : T) : AVLTree T :=
  match t with
  | nil => node key value 1 nil nil
  | node k v h l r =>
    if key < k then
      rebalance
        (node k v (1 + max (height (insert l key value)) (height r))
          (insert l key value) r) key
    else if k < key then
      rebalance
        (node k v (1 + max (height l) (height (insert r key value)))
          l (insert r key value)) key
    else node k value h l r

/-- `AVLTree::find` (private helper): returns the node with the given key, or
null. -/
def find : AVLTree T → String → AVLTree T
  | nil, _ => nil
  | node k v h l r, key =>
    if k = key then node k v h l r
    else if key < k then find l key
    else find r key

/-- The value carried by the node `find` returns, if any.  This is how
`WordMap` consumes `find`: a null result is "not found", a non-null result
yields the posting map (possibly empty). -/
def findValue (t : AVLTree T) (key : String) : Option T :=
  match find t key with
  | nil => none
  | node _ v _ _ _ => some v

end AVLTree

/-! ## Binary persistence (`saveMap` / `loadMap`, `AVLNode::save/load`,
`AVLTree::saveToFile/loadFromFile`)

Files are byte lists (`List Nat`, each entry < 256).  `size_t` is written as
8 little-endian bytes, `int` as 4 little-endian two's-complement bytes. -/

/-- A posting map `unordered_map<string, int>`, modelled as an association
list whose order stands in for the container's (unspecified) iteration
order.  Keys are unique by construction of the operations below. -/
abbrev PostingMap : Type := List (String × Int)

/-- `n` as `width` little-endian bytes (raw `out.write` of an unsigned
integer on x86-64). -/
def leBytes (width n : Nat) : List Nat :=
  (List.range width).map (fun i => n / 256 ^ i % 256)

/-- A 4-byte little-endian two's-complement `int`. -/
def intBytes (i : Int) : List Nat :=
  leBytes 4 (i.emod (2 ^ 32)).toNat

/-- The bytes of a (ASCII) `std::string`, as written by
`out.write(s.c_str(), s.length())`. -/
def strBytes (s : String) : List Nat :=
  s.toList.map (fun c => c.toNat % 256)

/-- `saveMap(map, out)`: the map size (8 bytes), then for every entry the key
length (8 bytes), the key bytes, and the 4-byte `int` value. -/
def saveMapBytes (m : PostingMap) : List Nat :=
  leBytes 8 m.length ++
    m.foldr (fun p acc => leBytes 8 p.1.length ++ strBytes p.1 ++ intBytes p.2 ++ acc) []

/-- `AVLTree::saveToFile` composed of `AVLTree::save` and `AVLNode::save`: if
the root is null nothing is written; otherwise only the root node's posting
map is written via `saveMap`.  No key, no child, and no non-root entry is
ever written. -/
def treeSaveBytes : AVLTree PostingMap → List Nat
  | AVLTree.nil => []
  | AVLTree.node _ v _ _ _ => saveMapBytes v

/-- C5's claimed byte format, written from the claim's words: for each stored
entry, the key length then the key bytes, then the posting-map entry count,
then for each posting the document-id length, the document-id bytes, and an
8-byte occurrence count. -/
def claimedSaveFormat (entries : List (String × PostingMap)) : List Nat :=
  entries.foldr
    (fun e acc =>
      leBytes 8 e.1.length ++ strBytes e.1 ++ leBytes 8 e.2.length ++
        e.2.foldr
          (fun p acc2 =>
            leBytes 8 p.1.length ++ strBytes p.1 ++ leBytes 8 p.2.toNat ++ acc2)
          [] ++ acc)
    []

/-- A recursive little-endian byte writer, used to phrase the amended C5
format independently of `leBytes`. -/
def leBytesRec : Nat → Nat → List Nat
  | 0, _ => []
  | w + 1, n => n % 256 :: leBytesRec w (n / 256)

/-- The amended C5 format: `save` writes nothing for an empty tree, and for a
non-empty tree writes only the root node's posting map — the entry count as 8
little-endian bytes, then for each posting the document-id length (8 bytes),
the document-id bytes, and a 4-byte little-endian two's-complement count.  No
key and no non-root entry is written. -/
def amendedSaveFormat : AVLTree PostingMap → List Nat
  | AVLTree.nil => []
  | AVLTree.node _ v _ _ _ =>
    leBytesRec 8 v.length ++
      v.foldr
        (fun p acc =>
          leBytesRec 8 p.1.length ++ strBytes p.1 ++
            leBytesRec 4 ((p.2.emod (2 ^ 32)).toNat) ++ acc)
        []

/-- An input stream: remaining bytes plus a good/fail flag.  Models an
`ifstream` whose exception mask is the default (no stream operation ever
throws); a failed or short `read` sets the fail flag and leaves the
destination object unspecified, modelled as zero bytes. -/
structure ByteStream where
  data : List Nat
  good : Bool
deriving Repr, DecidableEq

/-- `in.read(buf, n)`: take `n` bytes if available on a good stream,
otherwise fail and produce zeros. -/
def readBytes (n : Nat) (s : ByteStream) : List Nat × ByteStream :=
  if s.good ∧ n ≤ s.data.length then
    (s.data.take n, ⟨s.data.drop n, true⟩)
  else
    (List.replicate n 0, ⟨s.data, false⟩)

/-- Recompose a little-endian byte list into a natural number. -/
def bytesToNat (bs : List Nat) : Nat :=
  bs.foldr (fun b acc => b % 256 + 256 * acc) 0

/-- Read a `size_t`. -/
def readSize (s : ByteStream) : Nat × ByteStream :=
  let p := readBytes 8 s
  (bytesToNat p.1, p.2)

/-- Read a 4-byte two's-complement `int`. -/
def readInt (s : ByteStream) : Int × ByteStream :=
  let p := readBytes 4 s
  let n := bytesToNat p.1
  (if n < 2 ^ 31 then (n : Int) else (n : Int) - 2 ^ 32, p.2)

/-- Read `n` bytes as a string (`std::string key(keyLength, '\0')` then
`in.read(&key[0], keyLength)`). -/
def readString (n : Nat) (s : ByteStream) : String × ByteStream :=
  let p := readBytes n s
  (String.mk (p.1.map (fun b => Char.ofNat (b % 256))), p.2)

/-- `map[key] = value` on the association-list model: overwrite the existing
binding or append a new one. -/
def mapAssign (m : PostingMap) (k : String) (v : Int) : PostingMap :=
  if (m : List (String × Int)).any (fun p => p.1 == k) then
    (m : List (String × Int)).map (fun p => if p.1 == k then (k, v) else p)
  else m ++ [(k, v)]

/-- The entry-reading loop of `loadMap`. -/
def loadMapEntries : Nat → PostingMap → ByteStream → PostingMap × ByteStream
  | 0, m, s => (m, s)
  | n + 1, m, s =>
    let p1 := readSize s
    let p2 := readString p1.1 p1.2
    let p3 := readInt p2.2
    loadMapEntries n (mapAssign m p2.1 p3.1) p3.2

/-- `loadMap(map, in)`: read the size, clear the map, then read that many
entries. -/
def loadMapBytes (s : ByteStream) : PostingMap × ByteStream :=
  let p := readSize s
  loadMapEntries p.1 [] p.2

/-- The stream an `ifstream(filename, ios::binary)` yields: the file's bytes
when it exists, a failed stream otherwise. -/
def fileStream (content : Option (List Nat)) : ByteStream :=
  match content with
  | some bs => ⟨bs, true⟩
  | none => ⟨[], false⟩

/-- `AVLTree::loadFromFile` composed of `AVLTree::load` and `AVLNode::load`:
if the root is null nothing at all is read and the tree stays empty;
otherwise `loadMap` replaces only the root node's posting map.  No node is
ever created, no key and no child is touched. -/
def loadFromFile (t : AVLTree PostingMap) (content : Option (List Nat)) :
    AVLTree PostingMap :=
  match t with
  | AVLTree.nil => AVLTree.nil
  | AVLTree.node k _ h l r => AVLTree.node k (loadMapBytes (fileStream content)).1 h l r

/-! ## The Index Manager (`SearchEngine::WordMap`) -/

/-- A file system: maps a path to the file's bytes, absent files to `none`. -/
def FileSystem : Type := String → Option (List Nat)

/-- `SearchEngine::WordMap`: the three balanced indices. -/
structure WordMap where
  orgIndex : AVLTree PostingMap
  nameIndex : AVLTree PostingMap
  wordIndex : AVLTree PostingMap

/-- The freshly constructed `WordMap` (all roots null). -/
def emptyWordMap : WordMap :=
  ⟨AVLTree.nil, AVLTree.nil, AVLTree.nil⟩

/-- `files[filepath]++`: `operator[]` default-inserts 0, then increments. -/
def mapIncrement (m : PostingMap) (k : String) : PostingMap :=
  if (m : List (String × Int)).any (fun p => p.1 == k) then
    (m : List (String × Int)).map (fun p => if p.1 == k then (p.1, p.2 + 1) else p)
  else m ++ [(k, 1)]

/-- `WordMap::getFilesByWord`: a local empty map, filled by `find` when the
word is present. -/
def WordMap.getFilesByWord (wm : WordMap) (word : String) : PostingMap :=
  match AVLTree.findValue wm.wordIndex word with
  | some files => files
  | none => []

/-- `WordMap::getOtherFilesByWord`: literally `return getFilesByWord(word);`. -/
def WordMap.getOtherFilesByWord (wm : WordMap) (word : String) : PostingMap :=
  wm.getFilesByWord word

/-- `WordMap::associateWord`: no-op on the empty word, otherwise fetch the
word's posting map (empty if absent), bump the file's count, and re-insert. -/
def WordMap.associateWord (wm : WordMap) (word filepath : String) : WordMap :=
  if word = "" then wm
  else
    let files :=
      match AVLTree.findValue wm.wordIndex word with
      | some fs => fs
      | none => []
    { wm with wordIndex := AVLTree.insert wm.wordIndex word (mapIncrement files filepath) }

/-- `WordMap::load`: loads the three indices inside a `try`/`catch` that
returns `false` only when an exception escapes.  With the default `ifstream`
exception mask none of the stream operations modelled here throws, so the
function returns `true` unconditionally — in particular when every index
file is absent. -/
def WordMap.load (wm : WordMap) (fileSys : FileSystem)
    (filenamepath osavePath nsavePath wsavePath fsavePath : String) :
    Bool × WordMap :=
  (true,
   { orgIndex := loadFromFile wm.orgIndex (fileSys osavePath),
     nameIndex := loadFromFile wm.nameIndex (fileSys nsavePath),
     wordIndex := loadFromFile wm.wordIndex (fileSys wsavePath) })

/-- The body-word loop of `SearchEngine::buildFromScratch`: each extracted
body word is normalized by `processWord` and associated only when the result
is non-empty. -/
def indexBodyWords (wm : WordMap) (ws : List String) (filePath : String) : WordMap :=
  ws.foldl
    (fun acc w =>
      let processedWord := processWord w
      if processedWord ≠ "" then acc.associateWord processedWord filePath else acc)
    wm

/-! ## Invariants of the Balanced Index -/

namespace AVLTree

variable {T : Type}

/-- The true height of a tree, computed bottom-up (independent of the stored
height fields). -/
def realHeight : AVLTree T → Nat
  | nil => 0
  | node _ _ _ l r => 1 + max (realHeight l) (realHeight r)

/-- Every stored height field equals the true height of its subtree. -/
def HeightsOk : AVLTree T → Prop
  | nil => True
  | node _ _ h l r =>
    h = 1 + max (realHeight l) (realHeight r) ∧ HeightsOk l ∧ HeightsOk r

/-- The AVL balance invariant on true heights: at every node the two subtree
heights differ by at most one. -/
def BalancedR : AVLTree T → Prop
  | nil => True
  | node _ _ _ l r =>
    (realHeight l ≤ realHeight r + 1 ∧ realHeight r ≤ realHeight l + 1) ∧
      BalancedR l ∧ BalancedR r

/-- `p` holds of every key in the tree. -/
def ForallKeys (p : String → Prop) : AVLTree T → Prop
  | nil => True
  | node k _ _ l r => p k ∧ ForallKeys p l ∧ ForallKeys p r

/-- The binary-search-tree ordering invariant (lexicographic on keys). -/
def Ordered : AVLTree T → Prop
  | nil => True
  | node k _ _ l r =>
    ForallKeys (· < k) l ∧ ForallKeys (k < ·) r ∧ Ordered l ∧ Ordered r

/-- Shape information about an insertion that increased the subtree height:
either the tree was empty (a fresh singleton), or the result leans exactly
one level towards the side the new key went. -/
def GrowShape (t : AVLTree T) (key : String) : AVLTree T → Prop
  | nil => False
  | node k' _ _ a b =>
    (key < k' ∧ realHeight a = realHeight b + 1) ∨
    (k' < key ∧ realHeight b = realHeight a + 1) ∨
    (t = nil ∧ key = k' ∧ a = nil ∧ b = nil)

/-- The tree obtained by a sequence of public `insert(key, value)` calls on a
freshly constructed (empty) `AVLTree`. -/
def buildTree (ops : List (String × T)) : AVLTree T :=
  ops.foldl (fun t p => insert t p.1 p.2) nil

/-- The value most recently inserted for `key` in a call sequence, `none` if
the key was never inserted. -/
def mostRecent (ops : List (String × T)) (key : String) : Option T :=
  ops.foldl (fun acc p => if p.1 = key then some p.2 else acc) none

theorem height_node {k : String} {v : T} {h : Nat} {l r : AVLTree T} :
    height (node k v h l r) = h := rfl

theorem height_eq_realHeight {t : AVLTree T} (h : HeightsOk t) :
    height t = realHeight t := by
  cases t with
  | nil => rfl
  | node k v ht l r => simpa [height, realHeight, HeightsOk] using h.1

/-! ### Which branch of the rebalancing block runs -/

theorem rebalance_id {k : String} {v : T} {h : Nat} {l r : AVLTree T} {key : String}
    (H1 : (height l : Int) - height r ≤ 1) (H2 : -1 ≤ (height l : Int) - height r) :
    rebalance (node k v h l r) key = node k v h l r := by
  have n1 : ¬(1 < (height l : Int) - height r ∧ key < rootKey l) :=
    fun hc => absurd hc.1 (by omega)
  have n2 : ¬((height l : Int) - height r < -1 ∧ rootKey r < key) :=
    fun hc => absurd hc.1 (by omega)
  have n3 : ¬(1 < (height l : Int) - height r ∧ rootKey l < key) :=
    fun hc => absurd hc.1 (by omega)
  have n4 : ¬((height l : Int) - height r < -1 ∧ key < rootKey r) :=
    fun hc => absurd hc.1 (by omega)
  simp only [rebalance]
  rw [if_neg n1, if_neg n2, if_neg n3, if_neg n4]

theorem rebalance_rot1 {k : String} {v : T} {h : Nat} {l r : AVLTree T} {key : String}
    (H1 : 1 < (height l : Int) - height r) (H2 : key < rootKey l) :
    rebalance (node k v h l r) key = rightRotate (node k v h l r) := by
  simp only [rebalance]
  rw [if_pos ⟨H1, H2⟩]

theorem rebalance_rot2 {k : String} {v : T} {h : Nat} {l r : AVLTree T} {key : String}
    (H1 : (height l : Int) - height r < -1) (H2 : rootKey r < key) :
    rebalance (node k v h l r) key = leftRotate (node k v h l r) := by
  have n1 : ¬(1 < (height l : Int) - height r ∧ key < rootKey l) :=
    fun hc => absurd hc.1 (by omega)
  simp only [rebalance]
  rw [if_neg n1, if_pos ⟨H1, H2⟩]

theorem rebalance_rot3 {k : String} {v : T} {h : Nat} {l r : AVLTree T} {key : String}
    (H1 : 1 < (height l : Int) - height r) (H2 : rootKey l < key) :
    rebalance (node k v h l r) key = rightRotate (node k v h (leftRotate l) r) := by
  have n1 : ¬(1 < (height l : Int) - height r ∧ key < rootKey l) :=
    fun hc => (lt_asymm hc.2) H2
  have n2 : ¬((height l : Int) - height r < -1 ∧ rootKey r < key) :=
    fun hc => absurd hc.1 (by omega)
  simp only [rebalance]
  rw [if_neg n1, if_neg n2, if_pos ⟨H1, H2⟩]

theorem rebalance_rot4 {k : String} {v : T} {h : Nat} {l r : AVLTree T} {key : String}
    (H1 : (height l : Int) - height r < -1) (H2 : key < rootKey r) :
    rebalance (node k v h l r) key = leftRotate (node k v h l (rightRotate r)) := by
  have n1 : ¬(1 < (height l : Int) - height r ∧ key < rootKey l) :=
    fun hc => absurd hc.1 (by omega)
  have n2 : ¬((height l : Int) - height r < -1 ∧ rootKey r < key) :=
    fun hc => (lt_asymm hc.2) H2
  have n3 : ¬(1 < (height l : Int) - height r ∧ rootKey l < key) :=
    fun hc => absurd hc.1 (by omega)
  simp only [rebalance]
  rw [if_neg n1, if_neg n2, if_neg n3, if_pos ⟨H1, H2⟩]

/-! ### Rotations and insertion preserve the key-bound and ordering invariants -/

theorem forallKeys_mono {p q : String → Prop} (hpq : ∀ x, p x → q x) :
    ∀ {t : AVLTree T}, ForallKeys p t → ForallKeys q t := by
  intro t
  induction t with
  | nil => intro _; trivial
  | node k v h l r ihl ihr =>
    intro hp
    exact ⟨hpq k hp.1, ihl hp.2.1, ihr hp.2.2⟩

theorem forallKeys_rightRotate {p : String → Prop} {t : AVLTree T}
    (hp : ForallKeys p t) : ForallKeys p (rightRotate t) := by
  cases t with
  | nil => exact hp
  | node yk yv yh l t3 =>
    cases l with
    | nil => exact hp
    | node xk xv xh t1 t2 =>
      obtain ⟨hy, ⟨hx, h1, h2⟩, h3⟩ := hp
      exact ⟨hx, h1, hy, h2, h3⟩

theorem forallKeys_leftRotate {p : String → Prop} {t : AVLTree T}
    (hp : ForallKeys p t) : ForallKeys p (leftRotate t) := by
  cases t with
  | nil => exact hp
  | node xk xv xh t1 rr =>
    cases rr with
    | nil => exact hp
    | node yk yv yh t2 t3 =>
      obtain ⟨hx, h1, hy, h2, h3⟩ := hp
      exact ⟨hy, ⟨hx, h1, h2⟩, h3⟩

theorem forallKeys_rebalance {p : String → Prop} {t : AVLTree T} {key : String}
    (hp : ForallKeys p t) : ForallKeys p (rebalance t key) := by
  cases t with
  | nil => exact hp
  | node k v h l r =>
    obtain ⟨hk, hl, hr⟩ := hp
    simp only [rebalance]
    split_ifs with h1 h2 h3 h4
    · exact forallKeys_rightRotate ⟨hk, hl, hr⟩
    · exact forallKeys_leftRotate ⟨hk, hl, hr⟩
    · exact forallKeys_rightRotate ⟨hk, forallKeys_leftRotate hl, hr⟩
    · exact forallKeys_leftRotate ⟨hk, hl, forallKeys_rightRotate hr⟩
    · exact ⟨hk, hl, hr⟩

theorem insert_forallKeys {p : String → Prop} {key : String} {value : T} :
    ∀ {t : AVLTree T}, ForallKeys p t → p key →
      ForallKeys p (insert t key value) := by
  intro t
  induction t with
  | nil =>
    intro _ hkey
    exact ⟨hkey, trivial, trivial⟩
  | node k v h l r ihl ihr =>
    intro hp hkey
    obtain ⟨hk, hl, hr⟩ := hp
    simp only [insert]
    split_ifs with h1 h2
    · exact forallKeys_rebalance ⟨hk, ihl hl hkey, hr⟩
    · exact forallKeys_rebalance ⟨hk, hl, ihr hr hkey⟩
    · exact ⟨hk, hl, hr⟩

theorem ordered_rightRotate {t : AVLTree T} (ho : Ordered t) :
    Ordered (rightRotate t) := by
  cases t with
  | nil => exact ho
  | node yk yv yh l t3 =>
    cases l with
    | nil => exact ho
    | node xk xv xh t1 t2 =>
      obtain ⟨⟨hxy, hf1, hf2⟩, hf3, ⟨hg1, hg2, ho1, ho2⟩, ho3⟩ := ho
      refine ⟨hg1, ⟨hxy, hg2, forallKeys_mono (fun x hx => lt_trans hxy hx) hf3⟩,
        ho1, hf2, hf3, ho2, ho3⟩

theorem ordered_leftRotate {t : AVLTree T} (ho : Ordered t) :
    Ordered (leftRotate t) := by
  cases t with
  | nil => exact ho
  | node xk xv xh t1 rr =>
    cases rr with
    | nil => exact ho
    | node yk yv yh t2 t3 =>
      obtain ⟨hf1, ⟨hxy, hg2, hg3⟩, ho1, hq2, hq3, ho2, ho3⟩ := ho
      refine ⟨⟨hxy, forallKeys_mono (fun x hx => lt_trans hx hxy) hf1, hq2⟩,
        hq3, ⟨hf1, hg2, ho1, ho2⟩, ho3⟩

theorem ordered_rebalance {t : AVLTree T} {key : String} (ho : Ordered t) :
    Ordered (rebalance t key) := by
  cases t with
  | nil => exact ho
  | node k v h l r =>
    obtain ⟨hfl, hfr, hol, hor⟩ := ho
    simp only [rebalance]
    split_ifs with h1 h2 h3 h4
    · exact ordered_rightRotate ⟨hfl, hfr, hol, hor⟩
    · exact ordered_leftRotate ⟨hfl, hfr, hol, hor⟩
    · exact ordered_rightRotate
        ⟨forallKeys_leftRotate hfl, hfr, ordered_leftRotate hol, hor⟩
    · exact ordered_leftRotate
        ⟨hfl, forallKeys_rightRotate hfr, hol, ordered_rightRotate hor⟩
    · exact ⟨hfl, hfr, hol, hor⟩

theorem insert_ordered {key : String} {value : T} :
    ∀ {t : AVLTree T}, Ordered t → Ordered (insert t key value) := by
  intro t
  induction t with
  | nil =>
    intro _
    exact ⟨trivial, trivial, trivial, trivial⟩
  | node k v h l r ihl ihr =>
    intro ho
    obtain ⟨hfl, hfr, hol, hor⟩ := ho
    simp only [insert]
    split_ifs with h1 h2
    · exact ordered_rebalance ⟨insert_forallKeys hfl h1, hfr, ihl hol, hor⟩
    · exact ordered_rebalance ⟨hfl, insert_forallKeys hfr h2, hol, ihr hor⟩
    · exact ⟨hfl, hfr, hol, hor⟩

/-! ### Lookup after rotations and insertion -/

theorem findValue_node {k : String} {v : T} {h : Nat} {l r : AVLTree T} {key : String} :
    findValue (node k v h l r) key =
      if k = key then some v
      else if key < k then findValue l key else findValue r key := by
  simp only [findValue, find]
  split_ifs <;> rfl

theorem findValue_rightRotate {t : AVLTree T} (ho : Ordered t) (key : String) :
    findValue (rightRotate t) key = findValue t key := by
  cases t with
  | nil => rfl
  | node yk yv yh l t3 =>
    cases l with
    | nil => rfl
    | node xk xv xh t1 t2 =>
      have hxy : xk < yk := ho.1.1
      simp only [rightRotate, findValue_node]
      rcases lt_trichotomy key xk with h1 | h1 | h1
      · have hx : xk ≠ key := ne_of_gt h1
        have hy : yk ≠ key := ne_of_gt (lt_trans h1 hxy)
        simp [hx, hy, h1, lt_trans h1 hxy]
      · subst h1
        have hy : yk ≠ key := ne_of_gt hxy
        simp [hy, hxy, lt_irrefl]
      · have hx : xk ≠ key := ne_of_lt h1
        have hnx : ¬ key < xk := lt_asymm h1
        rcases lt_trichotomy key yk with h2 | h2 | h2
        · have hy : yk ≠ key := ne_of_gt h2
          simp [hx, hy, hnx, h2]
        · subst h2
          simp [hx, hnx]
        · have hy : yk ≠ key := ne_of_lt h2
          have hny : ¬ key < yk := lt_asymm h2
          simp [hx, hy, hnx, hny]

theorem findValue_leftRotate {t : AVLTree T} (ho : Ordered t) (key : String) :
    findValue (leftRotate t) key = findValue t key := by
  cases t with
  | nil => rfl
  | node xk xv xh t1 rr =>
    cases rr with
    | nil => rfl
    | node yk yv yh t2 t3 =>
      have hxy : xk < yk := ho.2.1.1
      simp only [leftRotate, findValue_node]
      rcases lt_trichotomy key xk with h1 | h1 | h1
      · have hx : xk ≠ key := ne_of_gt h1
        have hy : yk ≠ key := ne_of_gt (lt_trans h1 hxy)
        simp [hx, hy, h1, lt_trans h1 hxy]
      · subst h1
        have hy : yk ≠ key := ne_of_gt hxy
        simp [hy, hxy, lt_irrefl]
      · have hx : xk ≠ key := ne_of_lt h1
        have hnx : ¬ key < xk := lt_asymm h1
        rcases lt_trichotomy key yk with h2 | h2 | h2
        · have hy : yk ≠ key := ne_of_gt h2
          simp [hx, hy, hnx, h2]
        · subst h2
          simp [hx, hnx]
        · have hy : yk ≠ key := ne_of_lt h2
          have hny : ¬ key < yk := lt_asymm h2
          simp [hx, hy, hnx, hny]

theorem findValue_rebalance {t : AVLTree T} {key : String} (ho : Ordered t)
    (key' : String) : findValue (rebalance t key) key' = findValue t key' := by
  cases t with
  | nil => rfl
  | node k v h l r =>
    obtain ⟨hfl, hfr, hol, hor⟩ := ho
    have hO : Ordered (node k v h l r) := ⟨hfl, hfr, hol, hor⟩
    have hO3 : Ordered (node k v h (leftRotate l) r) :=
      ⟨forallKeys_leftRotate hfl, hfr, ordered_leftRotate hol, hor⟩
    have hO4 : Ordered (node k v h l (rightRotate r)) :=
      ⟨hfl, forallKeys_rightRotate hfr, hol, ordered_rightRotate hor⟩
    simp only [rebalance]
    split_ifs with h1 h2 h3 h4
    · exact findValue_rightRotate hO key'
    · exact findValue_leftRotate hO key'
    · rw [findValue_rightRotate hO3 key']
      rw [findValue_node, findValue_node, findValue_leftRotate hol key']
    · rw [findValue_leftRotate hO4 key']
      rw [findValue_node, findValue_node, findValue_rightRotate hor key']
    · rfl

theorem insert_findValue {key : String} {value : T} :
    ∀ {t : AVLTree T}, Ordered t → ∀ key',
      findValue (insert t key value) key' =
        if key = key' then some value else findValue t key' := by
  intro t
  induction t with
  | nil =>
    intro _ key'
    simp only [insert, findValue_node]
    split_ifs <;> rfl
  | node k v h l r ihl ihr =>
    intro ho key'
    obtain ⟨hfl, hfr, hol, hor⟩ := ho
    by_cases h1 : key < k
    · have hOM : Ordered (node k v (1 + max (height (insert l key value)) (height r))
          (insert l key value) r) :=
        ⟨insert_forallKeys hfl h1, hfr, insert_ordered hol, hor⟩
      have hins : insert (node k v h l r) key value =
          rebalance (node k v (1 + max (height (insert l key value)) (height r))
            (insert l key value) r) key := by
        simp only [insert]
        rw [if_pos h1]
      rw [hins, findValue_rebalance hOM key', findValue_node, findValue_node,
        ihl hol key']
      by_cases hkk : key = key'
      · subst hkk
        simp [ne_of_gt h1, h1]
      · simp [hkk]
    · by_cases h2 : k < key
      · have hOM : Ordered (node k v (1 + max (height l) (height (insert r key value)))
            l (insert r key value)) :=
          ⟨hfl, insert_forallKeys hfr h2, hol, insert_ordered hor⟩
        have hins : insert (node k v h l r) key value =
            rebalance (node k v (1 + max (height l) (height (insert r key value)))
              l (insert r key value)) key := by
          simp only [insert]
          rw [if_neg h1, if_pos h2]
        rw [hins, findValue_rebalance hOM key', findValue_node, findValue_node,
          ihr hor key']
        by_cases hkk : key = key'
        · subst hkk
          simp [ne_of_lt h2, h1]
        · simp [hkk]
      · have he : key = k := le_antisymm (not_lt.mp h2) (not_lt.mp h1)
        subst he
        have hins : insert (node key v h l r) key value = node key value h l r := by
          simp only [insert]
          rw [if_neg h1, if_neg h2]
        rw [hins, findValue_node, findValue_node]
        by_cases hkk : key = key'
        · simp [hkk]
        · simp [hkk]

/-! ### The four rebalancing shapes restore the height invariant -/

theorem rotate_case_ll {k lk : String} {v lv : T} {H lh : Nat} {A B r : AVLTree T}
    (hHokA : HeightsOk A) (hHokB : HeightsOk B) (hHokr : HeightsOk r)
    (hBalA : BalancedR A) (hBalB : BalancedR B) (hBalr : BalancedR r)
    (hA : realHeight A = realHeight r + 1) (hB : realHeight B = realHeight r) :
    HeightsOk (rightRotate (node k v H (node lk lv lh A B) r)) ∧
    BalancedR (rightRotate (node k v H (node lk lv lh A B) r)) ∧
    realHeight (rightRotate (node k v H (node lk lv lh A B) r)) = realHeight r + 2 := by
  have hhA := height_eq_realHeight hHokA
  have hhB := height_eq_realHeight hHokB
  have hhr := height_eq_realHeight hHokr
  simp only [rightRotate]
  rw [hhA, hhB, hhr]
  refine ⟨⟨?_, hHokA, ?_, hHokB, hHokr⟩,
    ⟨⟨?_, ?_⟩, hBalA, ⟨?_, ?_⟩, hBalB, hBalr⟩, ?_⟩
  all_goals try simp only [realHeight, Nat.max_def]
  all_goals try split_ifs
  all_goals omega

theorem rotate_case_lr {k lk bk : String} {v lv bv : T} {H lh bh : Nat}
    {A BA BB r : AVLTree T}
    (hHokA : HeightsOk A) (hHokBA : HeightsOk BA) (hHokBB : HeightsOk BB)
    (hHokr : HeightsOk r)
    (hBalA : BalancedR A) (hBalBA : BalancedR BA) (hBalBB : BalancedR BB)
    (hBalr : BalancedR r)
    (hA : realHeight A = realHeight r)
    (hBA : realHeight BA ≤ realHeight r) (hBB : realHeight BB ≤ realHeight r)
    (hBor : realHeight BA = realHeight r ∨ realHeight BB = realHeight r)
    (hBp1 : realHeight BA ≤ realHeight BB + 1)
    (hBp2 : realHeight BB ≤ realHeight BA + 1) :
    HeightsOk (rightRotate
      (node k v H (leftRotate (node lk lv lh A (node bk bv bh BA BB))) r)) ∧
    BalancedR (rightRotate
      (node k v H (leftRotate (node lk lv lh A (node bk bv bh BA BB))) r)) ∧
    realHeight (rightRotate
      (node k v H (leftRotate (node lk lv lh A (node bk bv bh BA BB))) r)) =
      realHeight r + 2 := by
  have hhA := height_eq_realHeight hHokA
  have hhBA := height_eq_realHeight hHokBA
  have hhBB := height_eq_realHeight hHokBB
  have hhr := height_eq_realHeight hHokr
  simp only [leftRotate, rightRotate, height_node]
  rw [hhA, hhBA, hhBB, hhr]
  refine ⟨⟨?_, ⟨?_, hHokA, hHokBA⟩, ?_, hHokBB, hHokr⟩,
    ⟨⟨?_, ?_⟩, ⟨⟨?_, ?_⟩, hBalA, hBalBA⟩, ⟨?_, ?_⟩, hBalBB, hBalr⟩, ?_⟩
  all_goals try simp only [realHeight, Nat.max_def]
  all_goals try split_ifs
  all_goals rcases hBor with hB | hB
  all_goals omega

theorem rotate_case_rr {k rk : String} {v rv : T} {H rh : Nat} {l C D : AVLTree T}
    (hHokl : HeightsOk l) (hHokC : HeightsOk C) (hHokD : HeightsOk D)
    (hBall : BalancedR l) (hBalC : BalancedR C) (hBalD : BalancedR D)
    (hC : realHeight C = realHeight l) (hD : realHeight D = realHeight l + 1) :
    HeightsOk (leftRotate (node k v H l (node rk rv rh C D))) ∧
    BalancedR (leftRotate (node k v H l (node rk rv rh C D))) ∧
    realHeight (leftRotate (node k v H l (node rk rv rh C D))) = realHeight l + 2 := by
  have hhl := height_eq_realHeight hHokl
  have hhC := height_eq_realHeight hHokC
  have hhD := height_eq_realHeight hHokD
  simp only [leftRotate]
  rw [hhl, hhC, hhD]
  refine ⟨⟨?_, ⟨?_, hHokl, hHokC⟩, hHokD⟩,
    ⟨⟨?_, ?_⟩, ⟨⟨?_, ?_⟩, hBall, hBalC⟩, hBalD⟩, ?_⟩
  all_goals try simp only [realHeight, Nat.max_def]
  all_goals try split_ifs
  all_goals omega

theorem rotate_case_rl {k rk ck : String} {v rv cv : T} {H rh ch : Nat}
    {l CA CB D : AVLTree T}
    (hHokl : HeightsOk l) (hHokCA : HeightsOk CA) (hHokCB : HeightsOk CB)
    (hHokD : HeightsOk D)
    (hBall : BalancedR l) (hBalCA : BalancedR CA) (hBalCB : BalancedR CB)
    (hBalD : BalancedR D)
    (hD : realHeight D = realHeight l)
    (hCA : realHeight CA ≤ realHeight l) (hCB : realHeight CB ≤ realHeight l)
    (hCor : realHeight CA = realHeight l ∨ realHeight CB = realHeight l)
    (hCp1 : realHeight CA ≤ realHeight CB + 1)
    (hCp2 : realHeight CB ≤ realHeight CA + 1) :
    HeightsOk (leftRotate
      (node k v H l (rightRotate (node rk rv rh (node ck cv ch CA CB) D)))) ∧
    BalancedR (leftRotate
      (node k v H l (rightRotate (node rk rv rh (node ck cv ch CA CB) D)))) ∧
    realHeight (leftRotate
      (node k v H l (rightRotate (node rk rv rh (node ck cv ch CA CB) D)))) =
      realHeight l + 2 := by
  have hhl := height_eq_realHeight hHokl
  have hhCA := height_eq_realHeight hHokCA
  have hhCB := height_eq_realHeight hHokCB
  have hhD := height_eq_realHeight hHokD
  simp only [rightRotate, leftRotate, height_node]
  rw [hhl, hhCA, hhCB, hhD]
  refine ⟨⟨?_, ⟨?_, hHokl, hHokCA⟩, ?_, hHokCB, hHokD⟩,
    ⟨⟨?_, ?_⟩, ⟨⟨?_, ?_⟩, hBall, hBalCA⟩, ⟨?_, ?_⟩, hBalCB, hBalD⟩, ?_⟩
  all_goals try simp only [realHeight, Nat.max_def]
  all_goals try split_ifs
  all_goals rcases hCor with hC | hC
  all_goals omega

/-- The key step for the balance invariant: inserting into a tree whose
stored heights are correct and whose true heights satisfy the AVL condition
yields such a tree again, and the tree's height grows by at most one; when it
grows, the new root leans exactly one level towards the inserted key. -/
theorem insert_hb (key : String) (value : T) :
    ∀ t : AVLTree T, HeightsOk t → BalancedR t →
      HeightsOk (insert t key value) ∧ BalancedR (insert t key value) ∧
      (realHeight (insert t key value) = realHeight t ∨
        (realHeight (insert t key value) = realHeight t + 1 ∧
          GrowShape t key (insert t key value))) := by
  intro t
  induction t with
  | nil =>
    intro _ _
    refine ⟨⟨?_, trivial, trivial⟩, ⟨⟨?_, ?_⟩, trivial, trivial⟩,
      Or.inr ⟨?_, Or.inr (Or.inr ⟨rfl, rfl, rfl, rfl⟩)⟩⟩ <;>
      simp [insert, realHeight]
  | node k v0 h0 l r ihl ihr =>
    intro hH hB
    obtain ⟨hh0, hHl, hHr⟩ := hH
    obtain ⟨⟨hb1, hb2⟩, hBl, hBr⟩ := hB
    have hhr := height_eq_realHeight hHr
    have hhl := height_eq_realHeight hHl
    by_cases h1 : key < k
    · obtain ⟨ihH, ihB, ihht⟩ := ihl hHl hBl
      have hins : insert (node k v0 h0 l r) key value =
          rebalance (node k v0 (1 + max (height (insert l key value)) (height r))
            (insert l key value) r) key := by
        simp only [insert]
        rw [if_pos h1]
      rw [hins]
      have hhl' := height_eq_realHeight ihH
      rcases ihht with hsame | ⟨hgrow, hshape⟩
      · have e1 : (height (insert l key value) : Int) - height r ≤ 1 := by
          rw [hhl', hhr, hsame]; omega
        have e2 : -1 ≤ (height (insert l key value) : Int) - height r := by
          rw [hhl', hhr, hsame]; omega
        rw [rebalance_id e1 e2]
        refine ⟨⟨?_, ihH, hHr⟩, ⟨⟨?_, ?_⟩, ihB, hBr⟩, Or.inl ?_⟩
        · rw [hhl', hhr]
        · omega
        · omega
        · simp only [realHeight]
          rw [hsame]
      · by_cases hble : realHeight (insert l key value) ≤ realHeight r + 1
        · have e1 : (height (insert l key value) : Int) - height r ≤ 1 := by
            rw [hhl', hhr]; omega
          have e2 : -1 ≤ (height (insert l key value) : Int) - height r := by
            rw [hhl', hhr]; omega
          rw [rebalance_id e1 e2]
          by_cases hcs : realHeight r ≤ realHeight l
          · refine ⟨⟨?_, ihH, hHr⟩, ⟨⟨?_, ?_⟩, ihB, hBr⟩,
              Or.inr ⟨?_, Or.inl ⟨h1, ?_⟩⟩⟩
            · rw [hhl', hhr]
            · omega
            · omega
            · simp only [realHeight, Nat.max_def]
              split_ifs <;> omega
            · omega
          · refine ⟨⟨?_, ihH, hHr⟩, ⟨⟨?_, ?_⟩, ihB, hBr⟩, Or.inl ?_⟩
            · rw [hhl', hhr]
            · omega
            · omega
            · simp only [realHeight, Nat.max_def]
              split_ifs <;> omega
        · have hb2eq : realHeight (insert l key value) = realHeight r + 2 := by
            omega
          cases hE : insert l key value with
          | nil =>
            rw [hE] at hgrow
            simp only [realHeight] at hgrow
            exact absurd hgrow (by omega)
          | node lk lv lh A B =>
            rw [hE] at ihH ihB hshape hgrow hb2eq hhl'
            obtain ⟨hlh, hHokA, hHokB⟩ := ihH
            obtain ⟨⟨hpl1, hpl2⟩, hBalA, hBalB⟩ := ihB
            simp only [realHeight] at hgrow hb2eq
            rcases hshape with ⟨hkey, hAB⟩ | ⟨hkey, hAB⟩ | ⟨hlnil, hkeq, hAnil, hBnil⟩
            · have hnum : realHeight A = realHeight r + 1 ∧
                  realHeight B = realHeight r := by
                simp only [Nat.max_def] at hb2eq
                split_ifs at hb2eq <;> omega
              have c1 : 1 < (height (node lk lv lh A B) : Int) - height r := by
                rw [height_node, hhr, hlh]
                simp only [Nat.max_def]
                split_ifs <;> omega
              have c2 : key < rootKey (node lk lv lh A B) := hkey
              rw [rebalance_rot1 c1 c2]
              have hro := @rotate_case_ll T k lk v0 lv
                (1 + max (height (node lk lv lh A B)) (height r)) lh A B r
                hHokA hHokB hHr hBalA hBalB hBr hnum.1 hnum.2
              refine ⟨hro.1, hro.2.1, Or.inl ?_⟩
              rw [hro.2.2]
              simp only [realHeight, Nat.max_def]
              split_ifs <;> omega
            · cases B with
              | nil =>
                simp only [realHeight] at hAB
                exact absurd hAB (by omega)
              | node bk bv bh BA BB =>
                obtain ⟨hbh, hHokBA, hHokBB⟩ := hHokB
                obtain ⟨⟨hbB1, hbB2⟩, hBalBA, hBalBB⟩ := hBalB
                simp only [realHeight] at hAB hgrow hb2eq hlh
                have hnum : realHeight A = realHeight r ∧
                    realHeight BA ≤ realHeight r ∧ realHeight BB ≤ realHeight r ∧
                    (realHeight BA = realHeight r ∨ realHeight BB = realHeight r) := by
                  simp only [Nat.max_def] at hAB hb2eq
                  split_ifs at hAB hb2eq <;> omega
                have c1 : 1 < (height (node lk lv lh A (node bk bv bh BA BB)) : Int) -
                    height r := by
                  rw [height_node, hhr, hlh]
                  simp only [Nat.max_def]
                  split_ifs <;> omega
                have c2 : rootKey (node lk lv lh A (node bk bv bh BA BB)) < key := hkey
                rw [rebalance_rot3 c1 c2]
                have hro := @rotate_case_lr T k lk bk v0 lv bv
                  (1 + max (height (node lk lv lh A (node bk bv bh BA BB))) (height r))
                  lh bh A BA BB r
                  hHokA hHokBA hHokBB hHr hBalA hBalBA hBalBB hBr
                  hnum.1 hnum.2.1 hnum.2.2.1 hnum.2.2.2 hbB1 hbB2
                refine ⟨hro.1, hro.2.1, Or.inl ?_⟩
                rw [hro.2.2]
                simp only [realHeight, Nat.max_def]
                split_ifs <;> omega
            · rw [hlnil] at hgrow
              simp only [realHeight] at hgrow
              exact absurd hgrow (by omega)
    · by_cases h2 : k < key
      · obtain ⟨ihH, ihB, ihht⟩ := ihr hHr hBr
        have hins : insert (node k v0 h0 l r) key value =
            rebalance (node k v0 (1 + max (height l) (height (insert r key value)))
              l (insert r key value)) key := by
          simp only [insert]
          rw [if_neg h1, if_pos h2]
        rw [hins]
        have hhr' := height_eq_realHeight ihH
        rcases ihht with hsame | ⟨hgrow, hshape⟩
        · have e1 : (height l : Int) - height (insert r key value) ≤ 1 := by
            rw [hhl, hhr', hsame]; omega
          have e2 : -1 ≤ (height l : Int) - height (insert r key value) := by
            rw [hhl, hhr', hsame]; omega
          rw [rebalance_id e1 e2]
          refine ⟨⟨?_, hHl, ihH⟩, ⟨⟨?_, ?_⟩, hBl, ihB⟩, Or.inl ?_⟩
          · rw [hhl, hhr']
          · omega
          · omega
          · simp only [realHeight]
            rw [hsame]
        · by_cases hble : realHeight (insert r key value) ≤ realHeight l + 1
          · have e1 : (height l : Int) - height (insert r key value) ≤ 1 := by
              rw [hhl, hhr']; omega
            have e2 : -1 ≤ (height l : Int) - height (insert r key value) := by
              rw [hhl, hhr']; omega
            rw [rebalance_id e1 e2]
            by_cases hcs : realHeight l ≤ realHeight r
            · refine ⟨⟨?_, hHl, ihH⟩, ⟨⟨?_, ?_⟩, hBl, ihB⟩,
                Or.inr ⟨?_, Or.inr (Or.inl ⟨h2, ?_⟩)⟩⟩
              · rw [hhl, hhr']
              · omega
              · omega
              · simp only [realHeight, Nat.max_def]
                split_ifs <;> omega
              · omega
            · refine ⟨⟨?_, hHl, ihH⟩, ⟨⟨?_, ?_⟩, hBl, ihB⟩, Or.inl ?_⟩
              · rw [hhl, hhr']
              · omega
              · omega
              · simp only [realHeight, Nat.max_def]
                split_ifs <;> omega
          · have hb2eq : realHeight (insert r key value) = realHeight l + 2 := by
              omega
            cases hE : insert r key value with
            | nil =>
              rw [hE] at hgrow
              simp only [realHeight] at hgrow
              exact absurd hgrow (by omega)
            | node rk rv rhh C D =>
              rw [hE] at ihH ihB hshape hgrow hb2eq hhr'
              obtain ⟨hrhh, hHokC, hHokD⟩ := ihH
              obtain ⟨⟨hpr1, hpr2⟩, hBalC, hBalD⟩ := ihB
              simp only [realHeight] at hgrow hb2eq
              rcases hshape with ⟨hkey, hCD⟩ | ⟨hkey, hCD⟩ | ⟨hrnil, hkeq, hCnil, hDnil⟩
              · cases C with
                | nil =>
                  simp only [realHeight] at hCD
                  exact absurd hCD (by omega)
                | node ck cv ch CA CB =>
                  obtain ⟨hch, hHokCA, hHokCB⟩ := hHokC
                  obtain ⟨⟨hcC1, hcC2⟩, hBalCA, hBalCB⟩ := hBalC
                  simp only [realHeight] at hCD hgrow hb2eq hrhh
                  have hnum : realHeight D = realHeight l ∧
                      realHeight CA ≤ realHeight l ∧ realHeight CB ≤ realHeight l ∧
                      (realHeight CA = realHeight l ∨
                        realHeight CB = realHeight l) := by
                    simp only [Nat.max_def] at hCD hb2eq
                    split_ifs at hCD hb2eq <;> omega
                  have c1 : (height l : Int) -
                      height (node rk rv rhh (node ck cv ch CA CB) D) < -1 := by
                    rw [height_node, hhl, hrhh]
                    simp only [Nat.max_def]
                    split_ifs <;> omega
                  have c2 : key <
                      rootKey (node rk rv rhh (node ck cv ch CA CB) D) := hkey
                  rw [rebalance_rot4 c1 c2]
                  have hro := @rotate_case_rl T k rk ck v0 rv cv
                    (1 + max (height l)
                      (height (node rk rv rhh (node ck cv ch CA CB) D)))
                    rhh ch l CA CB D
                    hHl hHokCA hHokCB hHokD hBl hBalCA hBalCB hBalD
                    hnum.1 hnum.2.1 hnum.2.2.1 hnum.2.2.2 hcC1 hcC2
                  refine ⟨hro.1, hro.2.1, Or.inl ?_⟩
                  rw [hro.2.2]
                  simp only [realHeight, Nat.max_def]
                  split_ifs <;> omega
              · have hnum : realHeight C = realHeight l ∧
                    realHeight D = realHeight l + 1 := by
                  simp only [Nat.max_def] at hb2eq
                  split_ifs at hb2eq <;> omega
                have c1 : (height l : Int) - height (node rk rv rhh C D) < -1 := by
                  rw [height_node, hhl, hrhh]
                  simp only [Nat.max_def]
                  split_ifs <;> omega
                have c2 : rootKey (node rk rv rhh C D) < key := hkey
                rw [rebalance_rot2 c1 c2]
                have hro := @rotate_case_rr T k rk v0 rv
                  (1 + max (height l) (height (node rk rv rhh C D))) rhh l C D
                  hHl hHokC hHokD hBl hBalC hBalD hnum.1 hnum.2
                refine ⟨hro.1, hro.2.1, Or.inl ?_⟩
                rw [hro.2.2]
                simp only [realHeight, Nat.max_def]
                split_ifs <;> omega
              · rw [hrnil] at hgrow
                simp only [realHeight] at hgrow
                exact absurd hgrow (by omega)
      · have he : key = k := le_antisymm (not_lt.mp h2) (not_lt.mp h1)
        subst he
        have hins : insert (node key v0 h0 l r) key value = node key value h0 l r := by
          simp only [insert]
          rw [if_neg h1, if_neg h2]
        rw [hins]
        exact ⟨⟨hh0, hHl, hHr⟩, ⟨⟨hb1, hb2⟩, hBl, hBr⟩, Or.inl rfl⟩

/-- Folding a sequence of inserts preserves the three structural invariants. -/
theorem foldl_insert_inv :
    ∀ (ops : List (String × T)) (t : AVLTree T),
      Ordered t → HeightsOk t → BalancedR t →
      Ordered (ops.foldl (fun s p => insert s p.1 p.2) t) ∧
      HeightsOk (ops.foldl (fun s p => insert s p.1 p.2) t) ∧
      BalancedR (ops.foldl (fun s p => insert s p.1 p.2) t) := by
  intro ops
  induction ops with
  | nil => intro t h1 h2 h3; exact ⟨h1, h2, h3⟩
  | cons p ops ih =>
    intro t h1 h2 h3
    obtain ⟨hh, hb, _⟩ := insert_hb p.1 p.2 t h2 h3
    exact ih (insert t p.1 p.2) (insert_ordered h1) hh hb

/-- Lookup in a tree built by a fold of inserts is the fold of the
per-insert lookup updates. -/
theorem foldl_findValue (key' : String) :
    ∀ (ops : List (String × T)) (t : AVLTree T), Ordered t →
      findValue (ops.foldl (fun s p => insert s p.1 p.2) t) key' =
        ops.foldl (fun acc p => if p.1 = key' then some p.2 else acc)
          (findValue t key') := by
  intro ops
  induction ops with
  | nil => intro t _; rfl
  | cons p ops ih =>
    intro t ho
    simp only [List.foldl_cons]
    rw [ih (insert t p.1 p.2) (insert_ordered ho)]
    congr 1
    exact insert_findValue ho key'

end AVLTree

theorem leBytes_eq_leBytesRec : ∀ (w n : Nat), leBytes w n = leBytesRec w n := by
  intro w
  induction w with
  | zero => intro n; rfl
  | succ w ih =>
    intro n
    simp only [leBytes, leBytesRec, List.range_succ_eq_map, List.map_cons,
      List.map_map]
    congr 1
    · simp
    · rw [← ih (n / 256)]
      simp only [leBytes]
      apply List.map_congr_left
      intro i _
      simp only [Function.comp_apply]
      rw [Nat.pow_succ, Nat.div_div_eq_div_mul, Nat.mul_comm]

/-- Membership and duplicate-freedom of the `parse` fold. -/
theorem parseStep_foldl (toks : List String) :
    ∀ acc : List String, acc.Nodup →
      (toks.foldl parseStep acc).Nodup ∧
      ∀ x, x ∈ toks.foldl parseStep acc ↔
        x ∈ acc ∨ ∃ tok ∈ toks, classify tok = some x := by
  induction toks with
  | nil =>
    intro acc h
    simp [h]
  | cons t toks ih =>
    intro acc h
    simp only [List.foldl_cons]
    have hstep : (parseStep acc t).Nodup ∧
        ∀ x, x ∈ parseStep acc t ↔ x ∈ acc ∨ classify t = some x := by
      cases hc : classify t with
      | none => simp [parseStep, hc, h]
      | some y =>
        simp only [parseStep, hc]
        by_cases hy : y ∈ acc
        · rw [if_pos hy]
          refine ⟨h, fun x => ⟨fun hx => Or.inl hx, fun hx => ?_⟩⟩
          rcases hx with hx | hx
          · exact hx
          · rw [← Option.some.inj hx]
            exact hy
        · rw [if_neg hy]
          constructor
          · simp [List.nodup_append, h, hy]
          · intro x
            simp only [List.mem_append, List.mem_singleton,
              Option.some.injEq]
            constructor
            · rintro (hx | hx)
              · exact Or.inl hx
              · exact Or.inr hx.symm
            · rintro (hx | hx)
              · exact Or.inl hx
              · exact Or.inr hx.symm
    obtain ⟨hnd, hmem⟩ := hstep
    obtain ⟨hnd2, hmem2⟩ := ih (parseStep acc t) hnd
    refine ⟨hnd2, fun x => ?_⟩
    rw [hmem2 x, hmem x]
    simp only [List.mem_cons]
    constructor
    · rintro ((hx | hx) | ⟨tok, htok, hcl⟩)
      · exact Or.inl hx
      · exact Or.inr ⟨t, Or.inl rfl, hx⟩
      · exact Or.inr ⟨tok, Or.inr htok, hcl⟩
    · rintro (hx | ⟨tok, htok | htok, hcl⟩)
      · exact Or.inl (Or.inl hx)
      · exact Or.inl (Or.inr (htok ▸ hcl))
      · exact Or.inr ⟨tok, htok, hcl⟩

/-! ## The claims -/

/-- Claim C1 (code bug): the persistence round-trip fails.  `AVLTree::save`
writes only the root node's posting map — never a key and never a non-root
entry — and `AVLTree::load` on a freshly constructed (empty) tree reads
nothing at all.  Evaluated at the failing input: an index holding the single
entry `"a" ↦ {"d" ↦ 1}`; `find "a"` succeeds on the original but reports
absence on the index reloaded from the saved bytes. -/
theorem save_load_roundtrip_fails :
    AVLTree.findValue (AVLTree.insert AVLTree.nil "a" ([("d", 1)] : PostingMap)) "a" =
      some [("d", 1)] ∧
    loadFromFile AVLTree.nil
      (some (treeSaveBytes (AVLTree.insert AVLTree.nil "a" ([("d", 1)] : PostingMap)))) =
      AVLTree.nil ∧
    AVLTree.findValue
      (loadFromFile AVLTree.nil
        (some (treeSaveBytes
          (AVLTree.insert AVLTree.nil "a" ([("d", 1)] : PostingMap))))) "a" =
      none := by
  decide

/-- Claim C2 (code bug): `WordMap::load` never reports failure.  The
`try`/`catch` returns `false` only when an exception escapes, but with the
default `ifstream` exception mask no stream operation throws — on a freshly
constructed index set (null roots, the startup path) nothing is even read —
so `load` returns `true` for every file system, in particular one in which
every index file is absent, and the untouched empty indices are exposed as a
successful load. -/
theorem wordMap_load_always_true :
    ∀ (fileSys : FileSystem) (p1 p2 p3 p4 p5 : String),
      WordMap.load emptyWordMap fileSys p1 p2 p3 p4 p5 = (true, emptyWordMap) :=
  fun _ _ _ _ _ _ => rfl

/-- Claim C3: after any sequence of `insert` calls on an initially empty
Balanced Index, every node's two subtree heights (computed bottom-up) differ
by at most one, and every stored height field equals the recomputed
bottom-up height. -/
theorem balance_invariant :
    ∀ (T : Type) (ops : List (String × T)),
      AVLTree.BalancedR (AVLTree.buildTree ops) ∧
        AVLTree.HeightsOk (AVLTree.buildTree ops) := by
  intro T ops
  obtain ⟨_, hh, hb⟩ :=
    AVLTree.foldl_insert_inv ops AVLTree.nil (by trivial) (by trivial) (by trivial)
  exact ⟨hb, hh⟩

/-- Claim C4: for every insert sequence into an initially empty Balanced
Index, `find` returns the most recently inserted value for an inserted key
and `none` for a never-inserted key; a key inserted with an empty posting
map is found as `some []`, an outcome distinct from the `none` of an absent
key. -/
theorem find_most_recent :
    (∀ (T : Type) (ops : List (String × T)) (key : String),
      AVLTree.findValue (AVLTree.buildTree ops) key = AVLTree.mostRecent ops key) ∧
    AVLTree.findValue (AVLTree.buildTree [("w", ([] : PostingMap))]) "w" =
      some ([] : PostingMap) ∧
    some ([] : PostingMap) ≠ none := by
  refine ⟨fun T ops key => ?_, by decide, by simp⟩
  exact AVLTree.foldl_findValue key ops AVLTree.nil (by trivial)

/-- Claim C5 counterexample: the bytes written by `save` are not in the
claimed format.  For the index holding the single entry `"ab" ↦ {"d" ↦ 1}`,
`save` writes 21 bytes containing neither the key `"ab"` nor its length, and
a 4-byte (not 8-byte) occurrence count, where the claimed per-entry format
would write 35 bytes beginning with the key length and key bytes. -/
theorem save_format_counterexample :
    treeSaveBytes (AVLTree.insert AVLTree.nil "ab" ([("d", 1)] : PostingMap)) ≠
      claimedSaveFormat [("ab", [("d", 1)])] := by
  decide

/-- Claim C5 amended: the bytes written by `save` consist of the root node's
posting map only (nothing for an empty tree), with no key written: the entry
count as 8 little-endian bytes, then for each posting the document-id length
(8 bytes), the document-id bytes, and a 4-byte little-endian
two's-complement occurrence count. -/
theorem save_format_amended :
    ∀ t : AVLTree PostingMap, treeSaveBytes t = amendedSaveFormat t := by
  intro t
  cases t with
  | nil => rfl
  | node k v h l r =>
    simp only [treeSaveBytes, amendedSaveFormat, saveMapBytes, intBytes,
      leBytes_eq_leBytesRec]

/-- Claim C6: `parse` returns a duplicate-free set whose members are exactly
the classified whitespace tokens of the query — `org:`/`person:` tokens kept
verbatim after case-folding, `-` tokens kept as `-` plus the normalized
remainder only when that normalization is non-empty, other tokens kept as
their non-empty normalization — so repeating a query token does not change
the parsed set, as the concrete instance shows. -/
theorem parse_characterization :
    (∀ q : String, (parse q).Nodup ∧
      ∀ x, x ∈ parse q ↔ ∃ tok ∈ tokenize q, classify tok = some x) ∧
    parse "profit profit" = parse "profit" ∧
    parse "ORG:Acme -Running running THE -the" = ["org:acme", "-run", "run"] := by
  refine ⟨fun q => ?_, by decide, by decide⟩
  obtain ⟨h1, h2⟩ := parseStep_foldl (tokenize q) [] List.nodup_nil
  refine ⟨h1, fun x => ?_⟩
  simpa [parse] using h2 x

/-- Claim C7 counterexample: stemming is not idempotent for every word —
`stem "housing" = "hous"` but `stem "hous" = "hou"`. -/
theorem stem_not_idempotent :
    stem (stem "housing") ≠ stem "housing" := by
  decide

/-- Claim C7 amended: `stem (stem w) = stem w` holds at the spec's
representative inputs: `stem "running" = "run"` and `stem "run" = "run"`,
hence re-stemming `"running"` is stable.  (It does not hold for every word,
see the counterexample.) -/
theorem stem_idempotent_representative :
    stem "running" = "run" ∧ stem "run" = "run" ∧
      stem (stem "running") = stem "running" := by
  decide

/-- Claim C8 counterexample: the claim's "returns the non-empty lowercased
stem" is wrong for tokens of length at most two, which `stem` returns
verbatim without lowercasing: `"AM"` lowercases to the stopword `"am"` and
contains uppercase letters, yet `processWord "AM" = "AM"`, which is not the
lowercased stem. -/
theorem processWord_uppercase_counterexample :
    containsUpper "AM" = true ∧ isStopword (lowerString "AM") = true ∧
      processWord "AM" = "AM" ∧ lowerString (processWord "AM") ≠ processWord "AM" := by
  decide

/-- Claim C8 amended: `processWord` tests the raw token against the
all-lowercase stopword set before `stem` lowercases it, so any token
containing an uppercase letter is never a stopword and is passed to `stem`
(lowercased when longer than two characters, verbatim otherwise); in
particular `processWord "The" = "the"` although `"the"` is a stopword, and
ingestion indexes such a token under `"the"` instead of dropping it. -/
theorem processWord_uppercase_stopword :
    (∀ w : String, containsUpper w = true →
      isStopword w = false ∧ processWord w = stem w) ∧
    processWord "The" = "the" ∧ isStopword "the" = true ∧
    WordMap.getFilesByWord (indexBodyWords emptyWordMap ["The"] "doc1") "the" =
      [("doc1", 1)] := by
  have hstop : ∀ w : String, containsUpper w = true → isStopword w = false := by
    intro w hw
    by_contra hcon
    have htrue : isStopword w = true := by
      cases hx : isStopword w
      · exact absurd hx hcon
      · rfl
    have hmem : w ∈ stopwords := of_decide_eq_true htrue
    have hlow : ∀ s ∈ stopwords, containsUpper s = false := by decide
    rw [hlow w hmem] at hw
    exact absurd hw (by decide)
  refine ⟨fun w hw => ⟨hstop w hw, ?_⟩, by decide, by decide, by decide⟩
  simp [processWord, hstop w hw]

/-- Witness for the amended C8 theorem at the concrete input `"The"`. -/
theorem processWord_uppercase_stopword_witness :
    containsUpper "The" = true ∧ isStopword "The" = false ∧
      processWord "The" = stem "The" :=
  ⟨by decide, (processWord_uppercase_stopword.1 "The" (by decide)).1,
    (processWord_uppercase_stopword.1 "The" (by decide)).2⟩

/-- Claim C9: `loadFromFile` never creates nodes: applied to an empty tree it
leaves the tree empty whatever the file contains, and applied to a non-empty
tree it replaces only the root node's posting map, leaving the root key, the
stored height, and both subtrees (hence every non-root node) unchanged. -/
theorem loadFromFile_frame :
    (∀ content, loadFromFile AVLTree.nil content = AVLTree.nil) ∧
    (∀ (k : String) (v : PostingMap) (h : Nat) (l r : AVLTree PostingMap)
        (content : Option (List Nat)),
      ∃ v', loadFromFile (AVLTree.node k v h l r) content =
        AVLTree.node k v' h l r) :=
  ⟨fun _ => rfl,
   fun k v h l r content => ⟨(loadMapBytes (fileStream content)).1, rfl⟩⟩

/-- Claim C10: `getOtherFilesByWord` returns exactly the same posting map as
`getFilesByWord` for every word and every index state. -/
theorem getOtherFilesByWord_eq :
    ∀ (wm : WordMap) (word : String),
      WordMap.getOtherFilesByWord wm word = WordMap.getFilesByWord wm word :=
  fun _ _ => rfl

end SearchEngineProof
